import Mathlib

/-!
Verification of the lexical front-end (tokenizer + dictionary tagger) of the
`nlprule` repository, shallowly embedded from `src/tokenizer.rs` and
`src/tokenizer/tag.rs`.

Modelling conventions:
* Rust `&str` values are modelled as `List Char` (a list of Unicode scalar
  values).  Character offsets are list indices; byte offsets are computed with
  `Char.utf8Size`, matching Rust's UTF-8 string representation.
* Rust `char::is_whitespace` (Unicode `White_Space`) is modelled by
  `rustIsWhitespace`, an explicit enumeration of the `White_Space` code points.
* Rust `str::to_lowercase` is modelled by mapping `Char.toLower` over the
  characters (exact on ASCII input; special multi-character Unicode lowercase
  expansions are out of scope of the claims checked here).
* The `regex` crate's leftmost-first (Perl-style preference) matching of the
  concrete URL pattern in `get_token_strs` is implemented by an explicit
  backtracking matcher (`matchUrlAt`) specialised to that pattern, and the
  `find_iter` scan is the position-by-position loop inside `gtsGo`.
-/

/-- Unicode `White_Space` code points: model of Rust `char::is_whitespace`. -/
def rustIsWhitespace (c : Char) : Bool :=
  let n := c.toNat
  (0x09 ≤ n && n ≤ 0x0D) || n == 0x20 || n == 0x85 || n == 0xA0 || n == 0x1680 ||
  (0x2000 ≤ n && n ≤ 0x200A) || n == 0x2028 || n == 0x2029 || n == 0x202F ||
  n == 0x205F || n == 0x3000

/-- The fixed delimiter set of `get_token_strs`:
the characters of the Rust literal `r##"'’`´‘],.:!?/\()<=>„“”"+#…*"##`
(the first and third entries are the apostrophe, U+0027, and the backquote,
U+0060, written via their code points). -/
def delimChars : List Char :=
  [Char.ofNat 39, '’', Char.ofNat 96, '´', '‘', ']', ',', '.', ':', '!', '?',
   '/', '\\', '(', ')', '<', '=', '>', '„', '“', '”', '"', '+', '#', '…', '*']

/-- The split predicate closure of `get_token_strs`:
`|c: char| c.is_whitespace() || r##"..."##.contains(c)`. -/
def splitFunc (c : Char) : Bool :=
  rustIsWhitespace c || delimChars.contains c

/-- Worker for `split`: `acc` is the reversed run of non-matching characters
accumulated since the last matched character (Rust's `last..index` slice). -/
def splitAux (f : Char → Bool) : List Char → List Char → List (List Char)
  | acc, [] => if acc.isEmpty then [] else [acc.reverse]
  | acc, c :: cs =>
    if f c then
      if acc.isEmpty then [c] :: splitAux f [] cs
      else acc.reverse :: [c] :: splitAux f [] cs
    else splitAux f (c :: acc) cs

/-- Model of the Rust `split` helper (`tokenizer.rs` lines 30–48): every
character matched by `split_func` becomes its own one-element piece, maximal
runs of unmatched characters become one piece, and no empty piece is pushed. -/
def split (f : Char → Bool) (text : List Char) : List (List Char) :=
  splitAux f [] text

/-- ASCII alphanumeric, i.e. the regex classes `a-zA-Z0-9`. -/
def asciiAlnum (c : Char) : Bool :=
  ('a' ≤ c && c ≤ 'z') || ('A' ≤ c && c ≤ 'Z') || ('0' ≤ c && c ≤ '9')

/-- The regex character class `[-a-zA-Z0-9@:%._\+~#=]` (host part). -/
def urlHostChar (c : Char) : Bool :=
  asciiAlnum c || c ∈ ['-', '@', ':', '%', '.', '_', '+', '~', '#', '=']

/-- The regex character class `[-a-zA-Z0-9@:%_\+.~#?&//=]` (path/query part). -/
def urlPathChar (c : Char) : Bool :=
  asciiAlnum c || c ∈ ['-', '@', ':', '%', '_', '+', '.', '~', '#', '?', '&', '/', '=']

/-- The regex character class `[a-z]` (top-level label). -/
def lowerAlpha (c : Char) : Bool :=
  'a' ≤ c && c ≤ 'z'

/-- A word character for the regex `\b` assertion (the ASCII word characters;
the claims checked here only exercise ASCII input around the boundary). -/
def wordChar (c : Char) : Bool :=
  asciiAlnum c || c == '_'

/-- Length of the maximal prefix of characters satisfying `f`. -/
def runLen (f : Char → Bool) : List Char → Nat
  | [] => 0
  | c :: cs => if f c then runLen f cs + 1 else 0

/-- `\b` after a word character: holds iff the next character is absent or is
not a word character. -/
def boundaryOk : List Char → Bool
  | [] => true
  | c :: _ => !wordChar c

/-- Backtracking loop for `[a-z]{2,6}\b[-a-zA-Z0-9@:%_\+.~#?&//=]*`:
try the top-level-label length `k` downwards (greedy preference), checking the
word boundary, then consume the maximal path/query run.  Returns the number of
characters consumed from `rest`. -/
def tryTld (rest : List Char) : Nat → Option Nat
  | 0 => none
  | k + 1 =>
    if k + 1 < 2 then none
    else if boundaryOk (rest.drop (k + 1)) then
      some (k + 1 + runLen urlPathChar (rest.drop (k + 1)))
    else tryTld rest k

/-- Matches `\.[a-z]{2,6}\b[-a-zA-Z0-9@:%_\+.~#?&//=]*` at the head of the
input, returning the number of characters consumed. -/
def matchTld : List Char → Option Nat
  | [] => none
  | c :: rest =>
    if c = '.' then
      match tryTld rest (min 6 (runLen lowerAlpha rest)) with
      | some n => some (n + 1)
      | none => none
    else none

/-- Backtracking loop for the host class repetition `{2,256}` followed by
`matchTld`: try the host length downwards from the greedy maximum. -/
def tryHost (cs : List Char) : Nat → Option Nat
  | 0 => none
  | k + 1 =>
    if k + 1 < 2 then none
    else
      match matchTld (cs.drop (k + 1)) with
      | some t => some (k + 1 + t)
      | none => tryHost cs k

/-- Matches `[-a-zA-Z0-9@:%._\+~#=]{2,256}\.[a-z]{2,6}\b(...)*` at the head. -/
def matchHost (cs : List Char) : Option Nat :=
  tryHost cs (min (runLen urlHostChar cs) 256)

/-- Matches `(www\.)?` followed by the host pattern, preferring the `www.`
branch (greedy) and backtracking to its absence if the rest then fails. -/
def matchHostWww (cs : List Char) : Option Nat :=
  match cs with
  | 'w' :: 'w' :: 'w' :: '.' :: rest =>
    match matchHost rest with
    | some n => some (n + 4)
    | none => matchHost cs
  | _ => matchHost cs

/-- Matches `://.` (the `.` is the regex any-character, which matches every
character except a newline) followed by `(www\.)?` and the host pattern. -/
def afterScheme (cs : List Char) : Option Nat :=
  match cs with
  | ':' :: '/' :: '/' :: c :: rest =>
    if c = '\n' then none
    else (matchHostWww rest).map (· + 4)
  | _ => none

/-- The whole URL pattern
`(http(s)?://.)?(www\.)?[-a-zA-Z0-9@:%._\+~#=]{2,256}\.[a-z]{2,6}\b([-a-zA-Z0-9@:%_\+.~#?&//=]*)`
matched at the head of `cs` with the regex crate's leftmost-first preference:
the optional scheme group (and its optional `s`) are tried present-first, with
backtracking to their absence when the remainder fails. -/
def matchUrlAt (cs : List Char) : Option Nat :=
  match cs with
  | 'h' :: 't' :: 't' :: 'p' :: rest =>
    let withScheme :=
      match rest with
      | 's' :: rest2 =>
        match afterScheme rest2 with
        | some n => some (n + 5)
        | none => (afterScheme rest).map (· + 4)
      | _ => (afterScheme rest).map (· + 4)
    match withScheme with
    | some n => some n
    | none => matchHostWww cs
  | _ => matchHostWww cs

/-- The scan of `URL_REGEX.find_iter` fused with the gap splitting of
`get_token_strs`: `acc` is the reversed text scanned since the previous match
(`text[prev..]`), tried position by position; a match of `n + 1` characters is
emitted atomically and the scan resumes after it.  `fuel` is an upper bound on
the number of scanning steps; every step consumes at least one character, and
`get_token_strs` supplies `fuel = text.length`, so the fuel-exhaustion branch
(which keeps the same tiling of the input) is never taken there. -/
def gtsGo : Nat → List Char → List Char → List (List Char)
  | _, acc, [] => split splitFunc acc.reverse
  | 0, acc, cs => split splitFunc (acc.reverse ++ cs)
  | fuel + 1, acc, c :: rest =>
    match matchUrlAt (c :: rest) with
    | some (n + 1) =>
      split splitFunc acc.reverse ++ ((c :: rest).take (n + 1)) :: gtsGo fuel [] (rest.drop n)
    | _ => gtsGo fuel (c :: acc) rest

/-- Model of `get_token_strs` (`tokenizer.rs` lines 50–70): URL-regex matches
are emitted as atomic pieces; the gaps between them are split at whitespace and
delimiter characters. -/
def get_token_strs (text : List Char) : List (List Char) :=
  gtsGo text.length [] text

/-- UTF-8 byte length of a character sequence, the model of Rust `str::len`
for our `List Char` representation of `&str`. -/
def byteLen (cs : List Char) : Nat :=
  (cs.map Char.utf8Size).sum

/-- Model of Rust `str::to_lowercase` on one character (exact on ASCII). -/
def lowerChar (c : Char) : Char :=
  c.toLower

/-- Model of Rust `str::trim`: drop leading and trailing `char::is_whitespace`
characters. -/
def trim (cs : List Char) : List Char :=
  ((cs.dropWhile rustIsWhitespace).reverse.dropWhile rustIsWhitespace).reverse

/-- Does the sequence end with a whitespace character?  Model of
`text[..byte_start].ends_with(char::is_whitespace)`. -/
def endsWithWs (cs : List Char) : Bool :=
  match cs.getLast? with
  | some c => rustIsWhitespace c
  | none => false

/-- The `Token` struct of `tokenizer.rs` (lines 72–83); `&'a str` fields are
`List Char`, `String` fields likewise. -/
structure Token where
  text : List Char
  lower : List Char
  tags : List (List Char × List Char)
  inflections : List (List Char)
  lower_inflections : List (List Char)
  postags : List (List Char)
  char_span : Nat × Nat
  byte_span : Nat × Nat
  has_space_before : Bool
deriving DecidableEq

/-- `Token::sent_start` (`tokenizer.rs` lines 85–99): the synthetic
sentence-start sentinel. -/
def Token.sent_start : Token where
  text := []
  inflections := []
  tags := []
  lower_inflections := []
  lower := []
  postags := ["SENT_START".data]
  char_span := (0, 0)
  byte_span := (0, 0)
  has_space_before := false

/-- The `Tagger` struct of `tag.rs`: a map from lowercase word form to the
registered `(inflection, tag)` pairs.  The Rust `HashMap` is modelled as an
association list with unique keys (`addEntry` below preserves uniqueness);
lookup order over distinct keys is irrelevant to `HashMap` semantics. -/
structure Tagger where
  tags : List (List Char × List (List Char × List Char))
deriving DecidableEq

/-- `tags.entry(word).or_insert_with(Vec::new).push((inflection, tag))`:
append the pair to the word's entry, creating the entry if absent. -/
def addEntry (m : List (List Char × List (List Char × List Char)))
    (word : List Char) (v : List Char × List Char) :
    List (List Char × List (List Char × List Char)) :=
  match m with
  | [] => [(word, [v])]
  | (k, vs) :: rest =>
    if k = word then (k, vs ++ [v]) :: rest
    else (k, vs) :: addEntry rest word v

/-- Rust `str::split('\t')`: split at every tab, keeping empty parts; the
result always has at least one element. -/
def splitOnTab : List Char → List (List Char)
  | [] => [[]]
  | c :: cs =>
    if c = '\t' then [] :: splitOnTab cs
    else
      match splitOnTab cs with
      | p :: ps => (c :: p) :: ps
      | [] => [[c]]

/-- Outcome of `Tagger::from_dumps`, whose Rust type is
`std::io::Result<Tagger>`: `ok` is the `Ok` branch, `ioError` the `Err`
branch (I/O failures from `read_dir`/`File::open`/line reads, which are
outside this content-level model and therefore never produced by it), and
`panicked` a Rust panic, which is not a value of the result type at all. -/
inductive LoadResult where
  | ok (t : Tagger)
  | ioError
  | panicked
deriving DecidableEq

/-- One iteration of the line loop of `Tagger::from_dumps` (`tag.rs` lines
19–34): skip `#` comments; otherwise split at tabs and index `parts[0]`,
`parts[1]`, `parts[2]`.  A line with fewer than three fields makes `parts[1]`
or `parts[2]` an out-of-bounds index, i.e. a panic (`none`). -/
def processLine (acc : List (List Char × List (List Char × List Char)))
    (line : List Char) :
    Option (List (List Char × List (List Char × List Char))) :=
  if line.head? = some '#' then some acc
  else
    match splitOnTab line with
    | word :: inflection :: tag :: _ =>
      some (addEntry acc (word.map lowerChar) (inflection, tag))
    | _ => none

/-- The line loop of `Tagger::from_dumps` over a list of lines. -/
def processLines (acc : List (List Char × List (List Char × List Char))) :
    List (List Char) → Option (List (List Char × List (List Char × List Char)))
  | [] => some acc
  | l :: ls =>
    match processLine acc l with
    | some acc2 => processLines acc2 ls
    | none => none

/-- Model of `Tagger::from_dumps` (`tag.rs` lines 11–38).  The directory is
abstracted as the list of its files' contents, each a list of lines (in the
order `read_dir` yields them — unspecified in Rust, taken as given here); the
I/O layer itself (whose failures would be `LoadResult.ioError`) is abstracted
away, so the model processes the lines of every file in order. -/
def Tagger.from_dumps (files : List (List (List Char))) : LoadResult :=
  match processLines [] files.flatten with
  | some t => .ok ⟨t⟩
  | none => .panicked

/-- Association-list lookup modelling `HashMap::get` on the tagger's map:
the value registered under `word`, or `[]` when the key is absent. -/
def lookupTags (word : List Char) :
    List (List Char × List (List Char × List Char)) → List (List Char × List Char)
  | [] => []
  | (k, vs) :: rest => if k = word then vs else lookupTags word rest

/-- `Tagger::get_tags` (`tag.rs` lines 40–42):
`self.tags.get(word).cloned().unwrap_or_else(Vec::new)`. -/
def Tagger.get_tags (t : Tagger) (word : List Char) : List (List Char × List Char) :=
  lookupTags word t.tags

/-- Modelled from the spec: `Disambiguator::apply` lives in
`src/tokenizer/disambiguate.rs`, which is not among the provided sources.
Spec §4.4 describes it as an opaque, externally configured transform whose
output the tokenizer "adopts … verbatim", whose job is only to contextually
resolve the `tags` candidates, and which is built from an external rule
resource.  With no rule applying it leaves the sequence unchanged, so it is
modelled as the identity transform. -/
def disambiguatorApply (tokens : List Token) : List Token :=
  tokens

/-- One token as built in the `map` closure of `tokenize` (`tokenizer.rs`
lines 121–142).  `pre` is the concatenation of all pieces already consumed,
so `pre.length` is Rust's `current_char` cursor, `byteLen pre` is the byte
offset of the piece inside the input (the pointer difference in the source:
the pieces of `get_token_strs` tile the input, see `get_token_strs_join`),
and `text[..byte_start]` is `pre` itself. -/
def mkToken (tagger : Tagger) (pre x : List Char) : Token :=
  let trimmed := trim x
  let lower := trimmed.map lowerChar
  { text := trimmed
    tags := tagger.get_tags lower
    lower := lower
    inflections := []
    lower_inflections := []
    postags := []
    char_span := (pre.length, pre.length + x.length)
    byte_span := (byteLen pre, byteLen pre + byteLen x)
    has_space_before := endsWithWs pre }

/-- The token-building loop of `tokenize` over the pieces of
`get_token_strs`, threading the consumed prefix. -/
def buildTokens (tagger : Tagger) : List Char → List (List Char) → List Token
  | _, [] => []
  | pre, x :: xs => mkToken tagger pre x :: buildTokens tagger (pre ++ x) xs

/-- The postprocessing pass of `tokenize` (`tokenizer.rs` lines 149–159),
applied to each token after disambiguation. -/
def postprocess (t : Token) : Token :=
  let inflections := t.tags.map Prod.fst ++ [t.text]
  let postags := t.tags.map Prod.snd
  { t with
    inflections := inflections
    lower_inflections := inflections.map (fun s => s.map lowerChar)
    postags := if postags.isEmpty then ["UNKNOWN".data] else postags }

/-- Model of `tokenize` (`tokenizer.rs` lines 101–162).  The `TAGGER` global
is passed explicitly; the `_sentence_indices` computation is unused by the
function (its result is discarded in the source) and is omitted.  The
sentinel is prepended, pieces whose trimmed text is empty are dropped, the
disambiguator is applied to the whole sequence, and the postprocessing pass
rewrites the derived fields of every token. -/
def tokenize (tagger : Tagger) (text : List Char) : List Token :=
  (disambiguatorApply
    (Token.sent_start ::
      (buildTokens tagger [] (get_token_strs text)).filter
        (fun t => !t.text.isEmpty))).map postprocess

/-! ### Properties of the splitter -/

theorem splitAux_flatten (f : Char → Bool) :
    ∀ (cs acc : List Char), (splitAux f acc cs).flatten = acc.reverse ++ cs := by
  intro cs
  induction cs with
  | nil =>
    intro acc
    by_cases h : acc.isEmpty
    · rw [List.isEmpty_iff] at h
      simp [splitAux, h]
    · simp [splitAux, h]
  | cons c cs ih =>
    intro acc
    by_cases hf : f c
    · by_cases h : acc.isEmpty
      · rw [List.isEmpty_iff] at h
        simp [splitAux, hf, h, ih]
      · simp [splitAux, hf, h, ih]
    · simpa [splitAux, hf] using ih (c :: acc)

theorem split_flatten (f : Char → Bool) (text : List Char) :
    (split f text).flatten = text := by
  simpa using splitAux_flatten f text []

theorem splitAux_ne_nil (f : Char → Bool) :
    ∀ (cs acc p : List Char), p ∈ splitAux f acc cs → p ≠ [] := by
  intro cs
  induction cs with
  | nil =>
    intro acc p hp
    by_cases h : acc.isEmpty
    · simp [splitAux, h] at hp
    · rw [splitAux, if_neg h] at hp
      rcases List.mem_singleton.1 hp with rfl
      rw [List.isEmpty_iff] at h
      simpa using h
  | cons c cs ih =>
    intro acc p hp
    by_cases hf : f c
    · by_cases h : acc.isEmpty
      · rw [splitAux, if_pos hf, if_pos h] at hp
        rcases List.mem_cons.1 hp with rfl | hp
        · simp
        · exact ih [] p hp
      · rw [splitAux, if_pos hf, if_neg h] at hp
        rcases List.mem_cons.1 hp with rfl | hp
        · rw [List.isEmpty_iff] at h
          simpa using h
        · rcases List.mem_cons.1 hp with rfl | hp
          · simp
          · exact ih [] p hp
    · rw [splitAux, if_neg hf] at hp
      exact ih (c :: acc) p hp

theorem split_ne_nil (f : Char → Bool) (text : List Char) :
    ∀ p ∈ split f text, p ≠ [] :=
  fun p hp => splitAux_ne_nil f text [] p hp

theorem gtsGo_flatten :
    ∀ (fuel : Nat) (acc cs : List Char), (gtsGo fuel acc cs).flatten = acc.reverse ++ cs := by
  intro fuel
  induction fuel with
  | zero =>
    intro acc cs
    cases cs with
    | nil => simp [gtsGo, split_flatten]
    | cons c rest => simp [gtsGo, split_flatten]
  | succ fuel ih =>
    intro acc cs
    cases cs with
    | nil => simp [gtsGo, split_flatten]
    | cons c rest =>
      rw [gtsGo]
      cases h : matchUrlAt (c :: rest) with
      | none => simpa using ih (c :: acc) rest
      | some n =>
        cases n with
        | zero => simpa using ih (c :: acc) rest
        | succ n =>
          simp only [List.flatten_append, List.flatten_cons, split_flatten, ih,
            List.reverse_nil, List.nil_append, List.take_cons]
          simp [List.take_append_drop, ← List.append_assoc]

theorem gtsGo_ne_nil :
    ∀ (fuel : Nat) (acc cs : List Char) (p : List Char), p ∈ gtsGo fuel acc cs → p ≠ [] := by
  intro fuel
  induction fuel with
  | zero =>
    intro acc cs p hp
    cases cs with
    | nil => exact splitAux_ne_nil _ _ _ p hp
    | cons c rest => exact splitAux_ne_nil _ _ _ p hp
  | succ fuel ih =>
    intro acc cs p hp
    cases cs with
    | nil => exact splitAux_ne_nil _ _ _ p hp
    | cons c rest =>
      rw [gtsGo] at hp
      cases h : matchUrlAt (c :: rest) with
      | none =>
        rw [h] at hp
        exact ih (c :: acc) rest p hp
      | some n =>
        cases n with
        | zero =>
          rw [h] at hp
          exact ih (c :: acc) rest p hp
        | succ n =>
          rw [h] at hp
          rcases List.mem_append.1 hp with hp | hp
          · exact splitAux_ne_nil _ _ _ p hp
          · rcases List.mem_cons.1 hp with rfl | hp
            · simp
            · exact ih [] (rest.drop n) p hp

/-- C3: for every input string, `get_token_strs` returns pieces that, in
order, concatenate back to the input exactly (before any trimming), contains
no zero-length piece, and maps empty input to the empty sequence. -/
theorem get_token_strs_exact (text : List Char) :
    (get_token_strs text).flatten = text ∧
    (∀ p ∈ get_token_strs text, p ≠ []) ∧
    (text = [] → get_token_strs text = []) := by
  refine ⟨by simpa using gtsGo_flatten text.length [] text,
    fun p hp => gtsGo_ne_nil text.length [] text p hp, ?_⟩
  rintro rfl
  rfl

/-- Witness for C3: the reconstruction property evaluated at the concrete
input `"ab cd"`, the no-zero-length-piece property at its first piece, and
the empty-input clause at the empty input. -/
theorem get_token_strs_exact_witness :
    (get_token_strs "ab cd".data).flatten = "ab cd".data ∧
    "ab".data ≠ ([] : List Char) ∧
    get_token_strs [] = [] :=
  ⟨(get_token_strs_exact "ab cd".data).1,
   (get_token_strs_exact "ab cd".data).2.1 "ab".data (by decide),
   (get_token_strs_exact []).2.2 rfl⟩

/-- C8: on the input `"visit https://example.com/a?b=1 now"` the segmenter
emits the URL-regex match `"https://example.com/a?b=1"` as one atomic piece,
not split at `/` or `.`; the surrounding text is split at whitespace. -/
theorem url_atomicity :
    get_token_strs "visit https://example.com/a?b=1 now".data =
      ["visit".data, " ".data, "https://example.com/a?b=1".data, " ".data, "now".data] := by
  decide

/-! ### Byte lengths -/

theorem utf8Size_eq_one_of_ascii (c : Char) (h : c.toNat < 128) : c.utf8Size = 1 := by
  unfold Char.utf8Size
  rw [if_pos]
  show c.val.toNat ≤ (127 : Nat)
  exact Nat.le_of_lt_succ h

theorem byteLen_append (a b : List Char) : byteLen (a ++ b) = byteLen a + byteLen b := by
  simp [byteLen]

theorem length_le_byteLen (cs : List Char) : cs.length ≤ byteLen cs := by
  induction cs with
  | nil => simp [byteLen]
  | cons c cs ih =>
    have hc := Char.utf8Size_pos c
    simp only [byteLen, List.map_cons, List.sum_cons, List.length_cons]
    simp only [byteLen] at ih
    omega

theorem byteLen_eq_length_of_ascii (cs : List Char) (h : ∀ c ∈ cs, c.toNat < 128) :
    byteLen cs = cs.length := by
  induction cs with
  | nil => rfl
  | cons c cs ih =>
    simp only [byteLen, List.map_cons, List.sum_cons, List.length_cons]
    simp only [byteLen] at ih
    rw [utf8Size_eq_one_of_ascii c (h c (List.mem_cons_self c cs)),
      ih (fun d hd => h d (List.mem_cons_of_mem c hd))]
    omega

theorem byteLen_pos (cs : List Char) (h : cs ≠ []) : 0 < byteLen cs := by
  cases cs with
  | nil => exact absurd rfl h
  | cons c cs =>
    have hc := Char.utf8Size_pos c
    simp only [byteLen, List.map_cons, List.sum_cons]
    omega

theorem endsWithWs_ne_nil {cs : List Char} (h : endsWithWs cs = true) : cs ≠ [] := by
  rintro rfl
  simp [endsWithWs] at h

/-! ### Decomposition of the token-building loop -/

theorem tokenize_eq (tagger : Tagger) (text : List Char) :
    tokenize tagger text =
      postprocess Token.sent_start ::
        ((buildTokens tagger [] (get_token_strs text)).filter
          (fun t => !t.text.isEmpty)).map postprocess := rfl

theorem get_token_strs_flatten (text : List Char) :
    (get_token_strs text).flatten = text := by
  simpa using gtsGo_flatten text.length [] text

theorem get_token_strs_ne_nil (text : List Char) :
    ∀ p ∈ get_token_strs text, p ≠ [] :=
  fun p hp => gtsGo_ne_nil text.length [] text p hp

theorem buildTokens_mem {tagger : Tagger} :
    ∀ {xs : List (List Char)} {pre : List Char} {tok : Token},
      tok ∈ buildTokens tagger pre xs →
      ∃ l1 x l2, xs = l1 ++ x :: l2 ∧ tok = mkToken tagger (pre ++ l1.flatten) x := by
  intro xs
  induction xs with
  | nil =>
    intro pre tok h
    simp [buildTokens] at h
  | cons x xs ih =>
    intro pre tok h
    rw [buildTokens] at h
    rcases List.mem_cons.1 h with rfl | h
    · exact ⟨[], x, xs, rfl, by simp⟩
    · rcases ih h with ⟨l1, x', l2, hxs, htok⟩
      refine ⟨x :: l1, x', l2, by rw [hxs]; rfl, ?_⟩
      rw [htok]
      simp [List.flatten_cons, List.append_assoc]

/-- Every token of `tokenize`'s tail arises from a piece `x` of the segmenter
with the input tiled as `pre ++ x ++ rest`, where `pre` is the concatenation
of the earlier pieces; the piece is non-empty and its trimmed text is
non-empty (it survived the filter). -/
theorem mem_tokenize_tail {tagger : Tagger} {text : List Char} {tok : Token}
    (h : tok ∈ (tokenize tagger text).tail) :
    ∃ pre x rest, text = pre ++ x ++ rest ∧ x ≠ [] ∧ trim x ≠ [] ∧
      tok = postprocess (mkToken tagger pre x) := by
  rw [tokenize_eq] at h
  simp only [List.tail_cons] at h
  rcases List.mem_map.1 h with ⟨t, ht, rfl⟩
  rcases List.mem_filter.1 ht with ⟨htb, htf⟩
  rcases buildTokens_mem htb with ⟨l1, x, l2, hxs, rfl⟩
  have hx : x ∈ get_token_strs text := by
    rw [hxs]
    exact List.mem_append_right l1 (List.mem_cons_self x l2)
  have htrim : trim x ≠ [] := by
    have : (mkToken tagger ([] ++ l1.flatten) x).text = trim x := rfl
    rw [this] at htf
    simpa [List.isEmpty_eq_false] using htf
  refine ⟨l1.flatten, x, l2.flatten, ?_, get_token_strs_ne_nil text x hx, htrim, by simp⟩
  have := get_token_strs_flatten text
  rw [hxs] at this
  simp only [List.flatten_append, List.flatten_cons] at this
  rw [← this, List.append_assoc]

theorem mem_tokenize {tagger : Tagger} {text : List Char} {tok : Token}
    (h : tok ∈ tokenize tagger text) :
    tok = postprocess Token.sent_start ∨
      ∃ pre x rest, text = pre ++ x ++ rest ∧ x ≠ [] ∧ trim x ≠ [] ∧
        tok = postprocess (mkToken tagger pre x) := by
  rw [tokenize_eq] at h
  rcases List.mem_cons.1 h with rfl | h
  · exact Or.inl rfl
  · exact Or.inr (mem_tokenize_tail (by rw [tokenize_eq]; simpa using h))

/-! ### Concrete tokens used by the witnesses -/

/-- The non-sentinel token of `tokenize ⟨[]⟩ "a"` (an unknown ASCII word). -/
def tokExA : Token :=
  ⟨['a'], ['a'], [], [['a']], [['a']], ["UNKNOWN".data], (0, 1), (0, 1), false⟩

/-- The last token of `tokenize ⟨[]⟩ "a b"`: the word `"b"` preceded by a
space. -/
def tokExB : Token :=
  ⟨['b'], ['b'], [], [['b']], [['b']], ["UNKNOWN".data], (2, 3), (2, 3), true⟩

/-! ### The claims about `tokenize` -/

/-- C1 fails as stated: on the empty input, the only token of the final
(post-disambiguation, post-postprocessing) output is the sentinel, and its
`postags` have been rewritten by the postprocessing pass (its `tags` list is
empty) to `["UNKNOWN"]` — not `["SENT_START"]` as the claim requires of the
final output. -/
theorem sentinel_first_counterexample :
    (tokenize ⟨[]⟩ []).map Token.postags = [["UNKNOWN".data]] ∧
    ["UNKNOWN".data] ≠ ["SENT_START".data] := by
  decide

/-- C1 (amended): for every tagger and input, the first element of the final
output of `tokenize` is the postprocessed sentinel — empty text, zero-length
char span and byte span at offset 0 — but while the sentinel is created with
`postags = ["SENT_START"]`, the postprocessing pass recomputes `postags` from
its (empty) `tags` list, so in the final output its `postags` are
`["UNKNOWN"]`. -/
theorem sentinel_first_amended (tagger : Tagger) (text : List Char) :
    (tokenize tagger text).head? = some (postprocess Token.sent_start) ∧
    (postprocess Token.sent_start).text = [] ∧
    (postprocess Token.sent_start).char_span = (0, 0) ∧
    (postprocess Token.sent_start).byte_span = (0, 0) ∧
    (postprocess Token.sent_start).postags = ["UNKNOWN".data] ∧
    Token.sent_start.postags = ["SENT_START".data] :=
  ⟨by rw [tokenize_eq]; rfl, by decide, by decide, by decide, by decide, by decide⟩

/-- C5: after the postprocessing pass, every token of the `tokenize` output
has `inflections` equal to the inflection forms of its resolved tags with its
own surface text appended last, `lower_inflections` equal to their elementwise
lowercase, and `postags` equal to the tag labels of its resolved tags, or
exactly `["UNKNOWN"]` when that list is empty. -/
theorem postprocessing_invariant (tagger : Tagger) (text : List Char) (tok : Token)
    (h : tok ∈ tokenize tagger text) :
    tok.inflections = tok.tags.map Prod.fst ++ [tok.text] ∧
    tok.lower_inflections = tok.inflections.map (fun s => s.map lowerChar) ∧
    tok.postags = if (tok.tags.map Prod.snd).isEmpty then ["UNKNOWN".data]
      else tok.tags.map Prod.snd := by
  rcases List.mem_map.1 h with ⟨t, -, rfl⟩
  exact ⟨rfl, rfl, rfl⟩

/-- Witness for C5 at the concrete input `"a"` (a word absent from the empty
dictionary, exercising the `["UNKNOWN"]` fallback). -/
theorem postprocessing_invariant_witness :
    tokExA.inflections = tokExA.tags.map Prod.fst ++ [tokExA.text] ∧
    tokExA.lower_inflections = tokExA.inflections.map (fun s => s.map lowerChar) ∧
    tokExA.postags = if (tokExA.tags.map Prod.snd).isEmpty then ["UNKNOWN".data]
      else tokExA.tags.map Prod.snd :=
  postprocessing_invariant ⟨[]⟩ "a".data tokExA (by decide)

/-- C9: for every token of the `tokenize` output the byte-span length is at
least the char-span length, with equality whenever the whole input is
ASCII. -/
theorem byte_span_ge_char_span (tagger : Tagger) (text : List Char) (tok : Token)
    (h : tok ∈ tokenize tagger text) :
    tok.char_span.2 - tok.char_span.1 ≤ tok.byte_span.2 - tok.byte_span.1 ∧
    ((∀ c ∈ text, c.toNat < 128) →
      tok.byte_span.2 - tok.byte_span.1 = tok.char_span.2 - tok.char_span.1) := by
  rcases mem_tokenize h with rfl | ⟨pre, x, rest, htext, -, -, rfl⟩
  · exact ⟨Nat.le_refl 0, fun _ => rfl⟩
  · have hc : (postprocess (mkToken tagger pre x)).char_span =
        (pre.length, pre.length + x.length) := rfl
    have hb : (postprocess (mkToken tagger pre x)).byte_span =
        (byteLen pre, byteLen pre + byteLen x) := rfl
    rw [hc, hb]
    simp only [Nat.add_sub_cancel_left]
    refine ⟨length_le_byteLen x, fun hascii => ?_⟩
    refine byteLen_eq_length_of_ascii x (fun c hc => hascii c ?_)
    rw [htext]
    exact List.mem_append_left rest (List.mem_append_right pre hc)

/-- Witness for C9 at the pure-ASCII input `"a"`. -/
theorem byte_span_ge_char_span_witness :
    tokExA.char_span.2 - tokExA.char_span.1 ≤ tokExA.byte_span.2 - tokExA.byte_span.1 ∧
    tokExA.byte_span.2 - tokExA.byte_span.1 = tokExA.char_span.2 - tokExA.char_span.1 :=
  ⟨(byte_span_ge_char_span ⟨[]⟩ "a".data tokExA (by decide)).1,
   (byte_span_ge_char_span ⟨[]⟩ "a".data tokExA (by decide)).2 (by decide)⟩

/-- C7: a non-sentinel token of the `tokenize` output has `has_space_before`
true iff its byte offset is non-zero and the input content preceding its
offset (the concatenation of all earlier pieces, `text.take tok.char_span.1`)
ends with a Unicode whitespace character; at offset 0 it is false. -/
theorem has_space_before_iff (tagger : Tagger) (text : List Char) (tok : Token)
    (h : tok ∈ (tokenize tagger text).tail) :
    (tok.has_space_before = true ↔
      tok.byte_span.1 ≠ 0 ∧ endsWithWs (text.take tok.char_span.1) = true) := by
  rcases mem_tokenize_tail h with ⟨pre, x, rest, htext, -, -, rfl⟩
  have h1 : (postprocess (mkToken tagger pre x)).has_space_before = endsWithWs pre := rfl
  have h2 : (postprocess (mkToken tagger pre x)).char_span.1 = pre.length := rfl
  have h3 : (postprocess (mkToken tagger pre x)).byte_span.1 = byteLen pre := rfl
  rw [h1, h2, h3]
  have hpre : text.take pre.length = pre := by
    rw [htext, List.append_assoc]
    exact List.take_left pre (x ++ rest)
  rw [hpre]
  constructor
  · intro hws
    have hne := endsWithWs_ne_nil hws
    have hb := byteLen_pos pre hne
    exact ⟨by omega, hws⟩
  · rintro ⟨-, hws⟩
    exact hws

/-- Witness for C7 at the concrete input `"a b"`: the token `"b"` sits at
byte offset 2 and is preceded by a space. -/
theorem has_space_before_iff_witness :
    (tokExB.has_space_before = true ↔
      tokExB.byte_span.1 ≠ 0 ∧ endsWithWs ("a b".data.take tokExB.char_span.1) = true) :=
  has_space_before_iff ⟨[]⟩ "a b".data tokExB (by decide)

/-! ### Span ordering (C4) -/

theorem buildTokens_start_ge {tagger : Tagger} {xs : List (List Char)}
    {pre : List Char} {tok : Token} (h : tok ∈ buildTokens tagger pre xs) :
    pre.length ≤ tok.char_span.1 ∧ byteLen pre ≤ tok.byte_span.1 := by
  rcases buildTokens_mem h with ⟨l1, x, l2, -, rfl⟩
  constructor
  · show pre.length ≤ (pre ++ l1.flatten).length
    simp
  · show byteLen pre ≤ byteLen (pre ++ l1.flatten)
    rw [byteLen_append]
    omega

theorem buildTokens_pairwise (tagger : Tagger) :
    ∀ (xs : List (List Char)) (pre : List Char),
      List.Pairwise
        (fun a b => a.char_span.2 ≤ b.char_span.1 ∧ a.byte_span.2 ≤ b.byte_span.1)
        (buildTokens tagger pre xs) := by
  intro xs
  induction xs with
  | nil => intro pre; simp [buildTokens]
  | cons x xs ih =>
    intro pre
    rw [buildTokens]
    refine List.Pairwise.cons ?_ (ih (pre ++ x))
    intro t ht
    have hge := buildTokens_start_ge ht
    constructor
    · show pre.length + x.length ≤ t.char_span.1
      have := hge.1
      rw [List.length_append] at this
      exact this
    · show byteLen pre + byteLen x ≤ t.byte_span.1
      have := hge.2
      rwa [byteLen_append] at this

/-- C4 fails as stated: on the input `"a"` the start offsets are not strictly
increasing from each token to the next when the leading sentinel is included —
the sentinel's zero-length span and the first word token both start at
offset 0. -/
theorem token_spans_counterexample :
    ¬ List.Chain'
        (fun a b : Token => a.char_span.1 < b.char_span.1 ∧ a.byte_span.1 < b.byte_span.1)
        (tokenize ⟨[]⟩ ['a']) := by
  intro h
  rw [show tokenize ⟨[]⟩ ['a'] =
      [postprocess Token.sent_start, postprocess (mkToken ⟨[]⟩ [] ['a'])] by decide] at h
  exact Nat.lt_irrefl 0 (List.chain'_cons.1 h).1.1

/-- C4 (amended): across the whole `tokenize` output, including the leading
sentinel, spans are pairwise non-overlapping and non-decreasing in
left-to-right input order (each token's span ends no later than the next
one's start, for char spans and byte spans alike), every non-sentinel token
has a non-empty span, hence start offsets strictly increase among the
non-sentinel tokens — while the zero-length sentinel span `(0,0)` may share
its start with the first token — and no span end exceeds the input length
(in characters for char spans, in bytes for byte spans). -/
theorem token_spans_amended (tagger : Tagger) (text : List Char) :
    List.Pairwise
      (fun a b => a.char_span.2 ≤ b.char_span.1 ∧ a.byte_span.2 ≤ b.byte_span.1)
      (tokenize tagger text) ∧
    (∀ t ∈ (tokenize tagger text).tail,
      t.char_span.1 < t.char_span.2 ∧ t.byte_span.1 < t.byte_span.2) ∧
    (∀ t ∈ tokenize tagger text,
      t.char_span.2 ≤ text.length ∧ t.byte_span.2 ≤ byteLen text) ∧
    List.Pairwise
      (fun a b => a.char_span.1 < b.char_span.1 ∧ a.byte_span.1 < b.byte_span.1)
      ((tokenize tagger text).tail) := by
  have htail : ∀ t ∈ (tokenize tagger text).tail,
      t.char_span.1 < t.char_span.2 ∧ t.byte_span.1 < t.byte_span.2 := by
    intro t ht
    rcases mem_tokenize_tail ht with ⟨pre, x, rest, -, hx, -, rfl⟩
    have hc : (postprocess (mkToken tagger pre x)).char_span =
        (pre.length, pre.length + x.length) := rfl
    have hb : (postprocess (mkToken tagger pre x)).byte_span =
        (byteLen pre, byteLen pre + byteLen x) := rfl
    rw [hc, hb]
    have h1 := List.length_pos_of_ne_nil hx
    have h2 := byteLen_pos x hx
    exact ⟨by omega, by omega⟩
  have hpair : List.Pairwise
      (fun a b => a.char_span.2 ≤ b.char_span.1 ∧ a.byte_span.2 ≤ b.byte_span.1)
      (tokenize tagger text) := by
    show List.Pairwise _
      ((Token.sent_start ::
        (buildTokens tagger [] (get_token_strs text)).filter (fun t => !t.text.isEmpty)).map
        postprocess)
    refine List.Pairwise.map postprocess (fun a b hab => hab) ?_
    refine List.Pairwise.cons ?_ ?_
    · intro t ht
      exact ⟨Nat.zero_le _, Nat.zero_le _⟩
    · exact ((buildTokens_pairwise tagger (get_token_strs text) []).sublist
        (List.filter_sublist _))
  refine ⟨hpair, htail, ?_, ?_⟩
  · intro t ht
    rcases mem_tokenize ht with rfl | ⟨pre, x, rest, htext, -, -, rfl⟩
    · exact ⟨Nat.zero_le _, Nat.zero_le _⟩
    · have hc : (postprocess (mkToken tagger pre x)).char_span =
          (pre.length, pre.length + x.length) := rfl
      have hb : (postprocess (mkToken tagger pre x)).byte_span =
          (byteLen pre, byteLen pre + byteLen x) := rfl
      rw [hc, hb, htext]
      constructor
      · simp only [List.length_append]
        omega
      · rw [byteLen_append, byteLen_append]
        omega
  · have hpt : List.Pairwise
        (fun a b => a.char_span.2 ≤ b.char_span.1 ∧ a.byte_span.2 ≤ b.byte_span.1)
        ((tokenize tagger text).tail) :=
      hpair.sublist (List.tail_sublist _)
    refine hpt.imp_of_mem ?_
    intro a b ha hb hab
    have hsa := htail a ha
    exact ⟨by omega, by omega⟩

/-- Witness for C4 at the concrete input `"a b"`: the token `"b"` has a
non-empty span and its span ends within the input. -/
theorem token_spans_amended_witness :
    (tokExB.char_span.1 < tokExB.char_span.2 ∧ tokExB.byte_span.1 < tokExB.byte_span.2) ∧
    (tokExB.char_span.2 ≤ "a b".data.length ∧ tokExB.byte_span.2 ≤ byteLen "a b".data) :=
  ⟨(token_spans_amended ⟨[]⟩ "a b".data).2.1 tokExB (by decide),
   (token_spans_amended ⟨[]⟩ "a b".data).2.2.1 tokExB (by decide)⟩

/-! ### Trimmed text (C10) -/

theorem head?_dropWhile_not (p : Char → Bool) :
    ∀ l : List Char, ((l.dropWhile p).head?.all fun c => !p c) = true := by
  intro l
  induction l with
  | nil => rfl
  | cons c cs ih =>
    by_cases h : p c
    · simpa [List.dropWhile_cons, h] using ih
    · simp [List.dropWhile_cons, h]

theorem getLast?_dropWhile (p : Char → Bool) :
    ∀ l : List Char, l.dropWhile p ≠ [] → (l.dropWhile p).getLast? = l.getLast? := by
  intro l
  induction l with
  | nil => intro h; simp at h
  | cons c cs ih =>
    intro h
    by_cases hp : p c
    · rw [List.dropWhile_cons, if_pos hp] at h ⊢
      rw [ih h]
      have hcs : cs ≠ [] := by
        rintro rfl
        simp at h
      cases cs with
      | nil => exact absurd rfl hcs
      | cons d ds => exact List.getLast?_cons_cons.symm
    · rw [List.dropWhile_cons, if_neg hp]

theorem trim_getLast_not_ws (cs : List Char) :
    ((trim cs).getLast?.all fun c => !rustIsWhitespace c) = true := by
  unfold trim
  rw [List.getLast?_reverse]
  exact head?_dropWhile_not rustIsWhitespace _

theorem trim_head_not_ws (cs : List Char) :
    ((trim cs).head?.all fun c => !rustIsWhitespace c) = true := by
  unfold trim
  rw [List.head?_reverse]
  by_cases h : ((cs.dropWhile rustIsWhitespace).reverse.dropWhile rustIsWhitespace) = []
  · rw [h]
    rfl
  · rw [getLast?_dropWhile rustIsWhitespace _ h, List.getLast?_reverse]
    exact head?_dropWhile_not rustIsWhitespace cs

/-- C10 fails as stated: on the input `"http:// example.com"` (the regex
scheme group's any-character position matched by a space), `tokenize` yields
one non-sentinel token whose text does contain a Unicode whitespace
character — `[false, true]` below records, sentinel first, which tokens'
texts contain whitespace. -/
theorem token_text_whitespace_counterexample :
    (tokenize ⟨[]⟩ "http:// example.com".data).map
      (fun t => t.text.any rustIsWhitespace) = [false, true] := by
  decide

/-- C10 (amended): every non-sentinel token of the `tokenize` output has
non-empty text and its text neither begins nor ends with a Unicode whitespace
character (so trimming a kept piece never removes leading/trailing characters
observed in the token); but interior whitespace can occur — inside a URL-regex
piece whose scheme's any-character is whitespace — so the original no-whitespace
claim does not hold of the text as a whole. -/
theorem token_text_trimmed_amended (tagger : Tagger) (text : List Char) (tok : Token)
    (h : tok ∈ (tokenize tagger text).tail) :
    tok.text ≠ [] ∧
    (tok.text.head?.all fun c => !rustIsWhitespace c) = true ∧
    (tok.text.getLast?.all fun c => !rustIsWhitespace c) = true := by
  rcases mem_tokenize_tail h with ⟨pre, x, rest, -, -, htrim, rfl⟩
  have htext : (postprocess (mkToken tagger pre x)).text = trim x := rfl
  rw [htext]
  exact ⟨htrim, trim_head_not_ws x, trim_getLast_not_ws x⟩

/-- Witness for C10 at the concrete input `"a"`. -/
theorem token_text_trimmed_amended_witness :
    tokExA.text ≠ [] ∧
    (tokExA.text.head?.all fun c => !rustIsWhitespace c) = true ∧
    (tokExA.text.getLast?.all fun c => !rustIsWhitespace c) = true :=
  token_text_trimmed_amended ⟨[]⟩ "a".data tokExA (by decide)

/-! ### Dictionary loading (C2, C6) -/

theorem processLine_malformed (acc : List (List Char × List (List Char × List Char)))
    (line : List Char) (h1 : line.head? ≠ some '#')
    (h2 : (splitOnTab line).length < 3) :
    processLine acc line = none := by
  unfold processLine
  rw [if_neg h1]
  cases hsp : splitOnTab line with
  | nil => rfl
  | cons a rest =>
    cases rest with
    | nil => rfl
    | cons b rest2 =>
      cases rest2 with
      | nil => rfl
      | cons c rest3 =>
        rw [hsp] at h2
        simp at h2
        omega

theorem processLines_panicked :
    ∀ (ls : List (List Char)) (acc : List (List Char × List (List Char × List Char))),
      (∃ line ∈ ls, line.head? ≠ some '#' ∧ (splitOnTab line).length < 3) →
      processLines acc ls = none := by
  intro ls
  induction ls with
  | nil =>
    rintro acc ⟨l, hl, -⟩
    simp at hl
  | cons l ls ih =>
    rintro acc ⟨l', hl', hbad⟩
    rcases List.mem_cons.1 hl' with rfl | hl'
    · rw [processLines, processLine_malformed acc l' hbad.1 hbad.2]
    · rw [processLines]
      cases hpl : processLine acc l with
      | none => rfl
      | some acc2 => exact ih acc2 ⟨l', hl', hbad⟩

/-- C2 fails as stated: on a dump whose single file has the single line
`"a\tb"` (two tab-separated fields, not a comment), `Tagger::from_dumps` does
not return through the error branch of its `io::Result` — it performs the
unchecked index `parts[2]` and panics.  `LoadResult.panicked` is the model of
that panic and is distinct from the `ioError` branch of the result type. -/
theorem from_dumps_malformed_counterexample :
    Tagger.from_dumps [["a\tb".data]] = LoadResult.panicked ∧
    LoadResult.panicked ≠ LoadResult.ioError := by
  decide

/-- C2 (amended): whenever some non-comment line of the dump directory has
fewer than three tab-separated fields, `Tagger::from_dumps` fails by a panic
(an out-of-bounds index into the split fields), not by an error value
returned to the caller; no `Tagger` (not even a partial one) is produced. -/
theorem from_dumps_malformed_panics (files : List (List (List Char)))
    (h : ∃ line ∈ files.flatten, line.head? ≠ some '#' ∧ (splitOnTab line).length < 3) :
    Tagger.from_dumps files = LoadResult.panicked := by
  unfold Tagger.from_dumps
  rw [processLines_panicked files.flatten [] h]

/-- Witness for C2 (amended) at a concrete one-field line `"x"`. -/
theorem from_dumps_malformed_panics_witness :
    Tagger.from_dumps [["x".data]] = LoadResult.panicked :=
  from_dumps_malformed_panics [["x".data]] (by decide)

/-- The contribution of one dump line to the entry list of the word `w`, as
the spec describes it (§4.3): non-comment lines with at least three
tab-separated fields register `(inflection, tag)` under the lowercased first
field. -/
def lineEntry (w : List Char) (line : List Char) : Option (List Char × List Char) :=
  if line.head? = some '#' then none
  else
    match splitOnTab line with
    | word :: inflection :: tag :: _ =>
      if word.map lowerChar = w then some (inflection, tag) else none
    | _ => none

/-- Specification-side description of the dictionary content (spec §3, §4.3):
the `(inflection, tag)` pairs of all lines registering the word `w`, in file
order.  `Tagger.get_tags` after a successful `Tagger.from_dumps` is proved to
agree with this. -/
def registeredEntries (files : List (List (List Char))) (w : List Char) :
    List (List Char × List Char) :=
  files.flatten.filterMap (lineEntry w)

theorem lookupTags_addEntry (w k : List Char) (v : List Char × List Char) :
    ∀ m, lookupTags w (addEntry m k v) =
      if k = w then lookupTags w m ++ [v] else lookupTags w m := by
  intro m
  induction m with
  | nil =>
    by_cases h : k = w <;> simp [addEntry, lookupTags, h]
  | cons kv rest ih =>
    obtain ⟨k0, vs⟩ := kv
    by_cases h0 : k0 = k
    · subst h0
      by_cases h : k0 = w <;> simp [addEntry, lookupTags, h]
    · by_cases h : k0 = w
      · subst h
        have hkw : ¬ k = k0 := fun hh => h0 hh.symm
        simp [addEntry, h0, lookupTags, hkw]
      · simp [addEntry, h0, lookupTags, h, ih]

theorem processLines_lookup (w : List Char) :
    ∀ (ls : List (List Char)) (acc t : List (List Char × List (List Char × List Char))),
      processLines acc ls = some t →
      lookupTags w t = lookupTags w acc ++ ls.filterMap (lineEntry w) := by
  intro ls
  induction ls with
  | nil =>
    intro acc t h
    injection h with h
    subst h
    simp
  | cons l ls ih =>
    intro acc t h
    rw [processLines] at h
    cases hpl : processLine acc l with
    | none => rw [hpl] at h; cases h
    | some acc2 =>
      rw [hpl] at h
      have hrec := ih acc2 t h
      unfold processLine at hpl
      by_cases hc : l.head? = some '#'
      · rw [if_pos hc] at hpl
        injection hpl with hpl
        subst hpl
        rw [hrec, List.filterMap_cons]
        simp [lineEntry, hc]
      · rw [if_neg hc] at hpl
        cases hsp : splitOnTab l with
        | nil => rw [hsp] at hpl; cases hpl
        | cons w0 rest =>
          cases rest with
          | nil => rw [hsp] at hpl; cases hpl
          | cons inf rest2 =>
            cases rest2 with
            | nil => rw [hsp] at hpl; cases hpl
            | cons tg rest3 =>
              rw [hsp] at hpl
              injection hpl with hpl
              subst hpl
              rw [hrec, lookupTags_addEntry w (w0.map lowerChar) (inf, tg) acc,
                List.filterMap_cons]
              by_cases hw : w0.map lowerChar = w
              · rw [if_pos hw]
                simp [lineEntry, hc, hsp, hw]
              · rw [if_neg hw]
                simp [lineEntry, hc, hsp, hw]

/-- C6: after a successful load, `Tagger::get_tags` returns, for every word,
exactly the `(inflection, tag)` pairs registered under that word (the
lowercased first field of each contributing line), in registration (file)
order; a word with no registered entries yields `[]`, and lookup never
fails (it is a total function into lists). -/
theorem get_tags_registered (files : List (List (List Char))) (t : Tagger)
    (h : Tagger.from_dumps files = LoadResult.ok t) (w : List Char) :
    t.get_tags w = registeredEntries files w := by
  unfold Tagger.from_dumps at h
  cases hp : processLines [] files.flatten with
  | none => rw [hp] at h; cases h
  | some m =>
    rw [hp] at h
    injection h with h
    subst h
    have := processLines_lookup w files.flatten [] m hp
    simpa [Tagger.get_tags, registeredEntries, lookupTags] using this

/-- Witness for C6: loading the single dump line `"run\trun\tVB"` and looking
up `"run"` yields exactly `[("run","VB")]`, while the absent key `"walk"`
yields `[]`. -/
theorem get_tags_registered_witness :
    Tagger.from_dumps [["run\trun\tVB".data]] =
      LoadResult.ok ⟨[("run".data, [("run".data, "VB".data)])]⟩ ∧
    Tagger.get_tags ⟨[("run".data, [("run".data, "VB".data)])]⟩ "run".data =
      registeredEntries [["run\trun\tVB".data]] "run".data ∧
    registeredEntries [["run\trun\tVB".data]] "run".data = [("run".data, "VB".data)] ∧
    Tagger.get_tags ⟨[("run".data, [("run".data, "VB".data)])]⟩ "walk".data =
      registeredEntries [["run\trun\tVB".data]] "walk".data ∧
    registeredEntries [["run\trun\tVB".data]] "walk".data = [] :=
  ⟨by decide,
   get_tags_registered [["run\trun\tVB".data]] ⟨[("run".data, [("run".data, "VB".data)])]⟩
     (by decide) "run".data,
   by decide,
   get_tags_registered [["run\trun\tVB".data]] ⟨[("run".data, [("run".data, "VB".data)])]⟩
     (by decide) "walk".data,
   by decide⟩
